import Mathlib

/-!
A verification development for the `sigye` time-tracking tool.

The core under study is the YAML-backed entry repository
(`sigye/repositories/time_entry_repo_yaml.py`): persistence of time
entries, the single-active-entry invariant, ordering on write,
partial-id resolution and the filter semantics.

Modelling conventions:
* A timestamp (`datetime`) is a pair of a calendar day ordinal and a
  time-of-day ordinal; the `.date()` projection returns the day.
  The lexicographic order on the pair is the order of the ISO-8601
  string that the Python code sorts by.
* The persisted YAML document (its single `entries` list) is a
  `List TimeEntry`; serialization round-trip is abstracted away.
* Python exceptions are `Except`/`Option` results; a method that
  raises before writing returns the unchanged store component.
* Python `set` fields (`projects`, `tags`) are lists in iteration
  order, since the code iterates them with early exit.
-/

/-- A calendar timestamp: `day` is the date ordinal (the value of
`.date()`), `tod` the position within the day.  Comparison of two
timestamps (as done by Python on ISO-8601 strings) is lexicographic. -/
structure DateTime where
  day : Nat
  tod : Nat
deriving DecidableEq, Repr

/-- Order on timestamps: lexicographic on (day, time-of-day); this is the
order of the ISO-8601 renderings that `save` sorts by. -/
def dtLE (a b : DateTime) : Prop :=
  a.day < b.day ∨ (a.day = b.day ∧ a.tod ≤ b.tod)

instance (a b : DateTime) : Decidable (dtLE a b) := by
  unfold dtLE; exact inferInstance

theorem dtLE_total (a b : DateTime) : dtLE a b ∨ dtLE b a := by
  unfold dtLE; omega

theorem dtLE_trans {a b c : DateTime} (h₁ : dtLE a b) (h₂ : dtLE b c) : dtLE a c := by
  unfold dtLE at *; omega

/-- One tracked interval (the `TimeEntry` model).  `end_time = none`
means the entry is active. -/
structure TimeEntry where
  id : String
  project : String
  comment : String
  tags : List String
  start_time : DateTime
  end_time : Option DateTime
deriving DecidableEq, Repr

/-- A query descriptor (the `EntryListFilter` model).  `projects` and
`tags` are kept as lists in set-iteration order. -/
structure EntryListFilter where
  id : Option String
  projects : List String
  start_date : Option Nat
  end_date : Option Nat
  tags : List String
deriving DecidableEq, Repr

/-- Error kinds raised by the repository and the id-resolution path
(`KeyError` → `notFoundError`, `IndexError` → `ambiguousIdError`). -/
inductive RepoErr where
  | notFoundError
  | ambiguousIdError (count : Nat)
deriving DecidableEq, Repr

/-- Tests that `pre` is a leading piece of `s` (Python `s.startswith(pre)`). -/
def strStarts (s pre : String) : Bool :=
  pre.data.isPrefixOf s.data

/-- The string minus its final character (Python `p[0:-1]`). -/
def dropLastStr (p : String) : String :=
  String.mk p.data.dropLast

/-- The test `p[-1] in "*+."`: the pattern's final character marks it as a
prefix pattern. -/
def isWild (p : String) : Bool :=
  match p.data.getLast? with
  | some c => c == '*' || c == '+' || c == '.'
  | none => false

/-- The sort key relation used by `save`: compare entries by
`start_time` (the code sorts the serialized records by their
`start_time` string). -/
def entryLE (a b : TimeEntry) : Prop :=
  dtLE a.start_time b.start_time

instance (a b : TimeEntry) : Decidable (entryLE a b) :=
  inferInstanceAs (Decidable (dtLE a.start_time b.start_time))

theorem entryLE_trans {a b c : TimeEntry} (h₁ : entryLE a b) (h₂ : entryLE b c) :
    entryLE a c := dtLE_trans h₁ h₂

instance : IsTotal TimeEntry entryLE := ⟨fun a b => dtLE_total a.start_time b.start_time⟩

instance : IsTrans TimeEntry entryLE := ⟨fun _ _ _ => entryLE_trans⟩

/-- Method `get_active_entry`: the first stored entry whose `end_time` is
absent (`next((e for e in entries if not e.get("end_time")), None)`). -/
def get_active_entry (l : List TimeEntry) : Option TimeEntry :=
  l.find? (fun e => e.end_time.isNone)

/-- Method `get_all`: returns the stored entries as they are persisted; the
code does not sort at read time ("entries are maintained in sorted
order during save operations"). -/
def get_all (l : List TimeEntry) : List TimeEntry :=
  l

/-- Method `get_by_project`: exact-match project filter over the stored list. -/
def get_by_project (project : String) (l : List TimeEntry) : List TimeEntry :=
  l.filter (fun e => e.project == project)

/-- Method `get_entry_by_id`: linear scan for the exact id; `KeyError` when no
entry has it. -/
def get_entry_by_id (id : String) (l : List TimeEntry) : Except RepoErr TimeEntry :=
  match l.find? (fun e => e.id == id) with
  | some e => Except.ok e
  | none => Except.error RepoErr.notFoundError

/-- Method `delete_entry`: one pass splits the list into the kept entries and
the last match (`found` is overwritten at each match); missing id
raises `KeyError` before any write, so the second component (the
persisted list) is unchanged in that case. -/
def delete_entry (id : String) (l : List TimeEntry) :
    Except RepoErr TimeEntry × List TimeEntry :=
  let entries := l.filter (fun e => !(e.id == id))
  match (l.filter (fun e => e.id == id)).getLast? with
  | none => (Except.error RepoErr.notFoundError, l)
  | some found => (Except.ok found, entries)

/-- The per-pattern test inside `_project_matching`'s loop for a
non-empty pattern:
`(f_proj[-1] in "*+." and project.startswith(f_proj[0:-1])) or f_proj == project`. -/
def pat_hit (p project : String) : Bool :=
  (isWild p && strStarts project (dropLastStr p)) || p == project

/-- Method `_project_matching`: scan the patterns in iteration order, returning
at the first hit; examining an empty pattern evaluates `f_proj[-1]` and
raises `IndexError`, modelled by `none`. -/
def project_matching : List String → String → Option Bool
  | [], _ => some false
  | p :: ps, project =>
    if p = "" then none
    else if pat_hit p project then some true
    else project_matching ps project

/-- The project condition of `_check_against_filter`:
`not filter.projects or self._project_matching(filter.projects, entry.project)`. -/
def proj_cond (ps : List String) (project : String) : Option Bool :=
  if ps = [] then some true else project_matching ps project

/-- Method `_check_against_filter`: the conjunction of the id, project, date
and tag conditions.  Python builds all five conditions eagerly, so an
`IndexError` from the project condition aborts the whole check
(`none`); the date conditions use `None`-falsiness as written. -/
def check_against_filter (f : EntryListFilter) (e : TimeEntry) : Option Bool :=
  let idCond : Bool :=
    match f.id with
    | none => true
    | some i => if i = "" then true else strStarts e.id i
  let startCond : Bool :=
    match f.start_date with
    | none => true
    | some d => decide (e.start_time.day ≥ d)
  let endCond : Bool :=
    match f.end_date with
    | none => true
    | some d =>
      match e.end_time with
      | none => false
      | some et => decide (et.day ≤ d)
  let tagCond : Bool :=
    if f.tags = [] then true else f.tags.any (fun t => e.tags.contains t)
  match proj_cond f.projects e.project with
  | none => none
  | some projCond => some (idCond && projCond && startCond && endCond && tagCond)

/-- The list comprehension of `filter`: keep the entries passing the
check; a raised `IndexError` aborts the whole listing. -/
def filter_entries (f : EntryListFilter) : List TimeEntry → Option (List TimeEntry)
  | [] => some []
  | e :: rest =>
    match check_against_filter f e, filter_entries f rest with
    | some true, some acc => some (e :: acc)
    | some false, some acc => some acc
    | _, _ => none

/-- Method `filter`: a missing filter means no filtering; otherwise apply the check over
`get_all`. -/
def repo_filter (f : Option EntryListFilter) (l : List TimeEntry) :
    Option (List TimeEntry) :=
  match f with
  | none => some (get_all l)
  | some f => filter_entries f (get_all l)

/-- Method `save`: one pass replaces every entry whose id matches (recording
`found`), the new entry is appended when none matched, and the whole
list is re-sorted by `start_time` (Python's stable sort, modelled by
insertion sort) before being persisted. -/
def save (entry : TimeEntry) (l : List TimeEntry) : List TimeEntry :=
  let replaced := l.map (fun e => if e.id = entry.id then entry else e)
  let entries := if l.any (fun e => e.id == entry.id) then replaced else replaced ++ [entry]
  List.insertionSort entryLE entries

/-! ### The repository with its in-memory cache

`TimeEntryRepositoryYaml` keeps the backing file's parsed content
(`file`) and the `_cache` attribute.  `_load_data` returns the cache
when set, otherwise reads the file and fills the cache; `_save_data`
writes the file and sets the cache to the written value. -/

/-- The mutable state of a `TimeEntryRepositoryYaml`: the backing
file's entry list and the `_cache` snapshot (`None` initially). -/
structure YamlRepo where
  file : List TimeEntry
  cache : Option (List TimeEntry)
deriving DecidableEq, Repr

/-- Method `_load_data`: serve from `_cache` when present, else read the file
and remember it. -/
def load_data (r : YamlRepo) : List TimeEntry × YamlRepo :=
  match r.cache with
  | some d => (d, r)
  | none => (r.file, { file := r.file, cache := some r.file })

/-- Method `_save_data`: overwrite the file and set `_cache` to the written
data. -/
def save_data (d : List TimeEntry) (_r : YamlRepo) : YamlRepo :=
  { file := d, cache := some d }

/-- The `save` method on the cached repository: load, upsert+sort,
persist. -/
def repo_save (e : TimeEntry) (r : YamlRepo) : YamlRepo :=
  save_data (save e (load_data r).1) (load_data r).2

/-- The `delete_entry` method on the cached repository; the `KeyError`
is raised before `_save_data`, leaving the state as loaded. -/
def repo_delete (i : String) (r : YamlRepo) : Except RepoErr TimeEntry × YamlRepo :=
  match delete_entry i (load_data r).1 with
  | (Except.error err, _) => (Except.error err, (load_data r).2)
  | (Except.ok e, l₂) => (Except.ok e, save_data l₂ (load_data r).2)

/-- Read `get_active_entry` on the cached repository. -/
def repo_get_active (r : YamlRepo) : Option TimeEntry × YamlRepo :=
  (get_active_entry (load_data r).1, (load_data r).2)

/-- Read `get_all` on the cached repository. -/
def repo_get_all (r : YamlRepo) : List TimeEntry × YamlRepo :=
  (get_all (load_data r).1, (load_data r).2)

/-- Read `get_entry_by_id` on the cached repository. -/
def repo_get_by_id (i : String) (r : YamlRepo) : Except RepoErr TimeEntry × YamlRepo :=
  (get_entry_by_id i (load_data r).1, (load_data r).2)

/-- Read `filter` on the cached repository. -/
def repo_filter_cached (f : Option EntryListFilter) (r : YamlRepo) :
    Option (List TimeEntry) × YamlRepo :=
  (repo_filter f (load_data r).1, (load_data r).2)

/-- One repository operation: a write (`saveOp`, `deleteOp`) or any
read (`readOp`), which may fill the cache but must not change what is
observed. -/
inductive RepoOp where
  | saveOp (e : TimeEntry)
  | deleteOp (i : String)
  | readOp
deriving DecidableEq, Repr

/-- Run one operation on the cached repository (results are discarded;
only the state evolution matters here). -/
def cached_step (r : YamlRepo) : RepoOp → YamlRepo
  | RepoOp.saveOp e => repo_save e r
  | RepoOp.deleteOp i => (repo_delete i r).2
  | RepoOp.readOp => (load_data r).2

/-- Run a sequence of operations on the cached repository. -/
def apply_cached (ops : List RepoOp) (r : YamlRepo) : YamlRepo :=
  ops.foldl cached_step r

/-- Run one operation on the cache-free store: the persisted list is
transformed directly, and reads change nothing. -/
def plain_step (l : List TimeEntry) : RepoOp → List TimeEntry
  | RepoOp.saveOp e => save e l
  | RepoOp.deleteOp i => (delete_entry i l).2
  | RepoOp.readOp => l

/-- Run a sequence of operations on the cache-free store. -/
def apply_plain (ops : List RepoOp) (l : List TimeEntry) : List TimeEntry :=
  ops.foldl plain_step l

/-! ### The service layer

`services.py` is not part of the sources here (only `cli.py` calls
it), so the operations below are modelled from the spec. -/

/-- Errors raised by the `TimeTrackingService` operations. -/
inductive SvcErr where
  | activeEntryExistsError
  | noActiveEntryError
  | invalidTimeRangeError
deriving DecidableEq, Repr

/-- The service state: the persisted entries plus a fresh-id source
(the spec requires `startTracking` to generate a fresh unique id; a
counter realizes that). -/
structure ServiceState where
  entries : List TimeEntry
  nextId : Nat
deriving DecidableEq, Repr

/-- The id generated for the `n`-th created entry; distinct counters
give distinct ids (witnessed by the string length). -/
def genId (n : Nat) : String :=
  String.mk (List.replicate (n + 1) 'e')

/-- Modelled from the spec: `startTracking(project, comment, tags,
startTime)` of `TimeTrackingService` (its module is not among the
sources).  Fails with `ActiveEntryExistsError` when `getActiveEntry`
returns a value; otherwise creates an entry with a fresh id, no
`end_time`, and persists it through the store's `save`. -/
def start_tracking (project comment : String) (tags : List String) (t : DateTime)
    (s : ServiceState) : Except SvcErr TimeEntry × ServiceState :=
  match get_active_entry s.entries with
  | some _ => (Except.error SvcErr.activeEntryExistsError, s)
  | none =>
    let e : TimeEntry :=
      { id := genId s.nextId, project := project, comment := comment,
        tags := tags, start_time := t, end_time := none }
    (Except.ok e, { entries := save e s.entries, nextId := s.nextId + 1 })

/-- Modelled from the spec: `stopTracking(stopTime)` of
`TimeTrackingService` (its module is not among the sources).  Fails
with `NoActiveEntryError` when nothing is active; fails with
`InvalidTimeRangeError` when the resulting `end_time` would precede
`start_time`; otherwise sets the active entry's `end_time` and
persists it through the store's `save`. -/
def stop_tracking (t : DateTime) (s : ServiceState) :
    Except SvcErr TimeEntry × ServiceState :=
  match get_active_entry s.entries with
  | none => (Except.error SvcErr.noActiveEntryError, s)
  | some a =>
    if dtLE a.start_time t then
      let e := { a with end_time := some t }
      (Except.ok e, { entries := save e s.entries, nextId := s.nextId })
    else
      (Except.error SvcErr.invalidTimeRangeError, s)

/-- Modelled from the spec: `getEntryByPartialId` of
`TimeTrackingService` (its module is not among the sources; `cli.py`
maps its `KeyError` to "No entry found" and its `IndexError` to
"Multiple records found").  Scans all stored entries for ids starting
with the given piece: zero matches raise `NotFoundError`, more than
one raise `AmbiguousIdError` with the match count, exactly one is
returned. -/
def get_entry_by_pid (pfx : String) (l : List TimeEntry) : Except RepoErr TimeEntry :=
  match (get_all l).filter (fun e => strStarts e.id pfx) with
  | [] => Except.error RepoErr.notFoundError
  | [e] => Except.ok e
  | m => Except.error (RepoErr.ambiguousIdError m.length)

/-- A `startTracking`/`stopTracking` call with its arguments. -/
inductive SvcOp where
  | startOp (project comment : String) (tags : List String) (t : DateTime)
  | stopOp (t : DateTime)
deriving DecidableEq, Repr

/-- Run one service call (the returned entry or error is discarded;
a failed call leaves the store untouched). -/
def svc_step (s : ServiceState) : SvcOp → ServiceState
  | SvcOp.startOp project comment tags t => (start_tracking project comment tags t s).2
  | SvcOp.stopOp t => (stop_tracking t s).2

/-- Run a sequence of service calls. -/
def apply_svc (ops : List SvcOp) (s : ServiceState) : ServiceState :=
  ops.foldl svc_step s

/-- The initially empty store. -/
def svc_init : ServiceState :=
  { entries := [], nextId := 0 }

/-- Number of stored entries with an absent `end_time`. -/
def active_count (l : List TimeEntry) : Nat :=
  l.countP (fun e => e.end_time.isNone)

/-! ### Helper lemmas -/

theorem genId_inj {a b : Nat} (h : genId a = genId b) : a = b := by
  unfold genId at h
  have h₂ := congrArg (fun s : String => s.data.length) h
  simpa using h₂

/-- Behaviour of `save` when no stored id matches: append then stable-sort. -/
theorem save_of_not_found {x : TimeEntry} {l : List TimeEntry}
    (h : l.any (fun e => e.id == x.id) = false) :
    save x l = List.insertionSort entryLE (l ++ [x]) := by
  have hne : ∀ e ∈ l, ¬(e.id == x.id) = true := List.any_eq_false.mp h
  have hmap : l.map (fun e => if e.id = x.id then x else e) = l := by
    rw [List.map_congr_left (g := fun e => e), List.map_id']
    intro a ha
    simp only [beq_iff_eq] at hne
    simp [hne a ha]
  simp [save, h, hmap]

/-- Behaviour of `save` when some stored id matches: replace in place then
stable-sort. -/
theorem save_of_found {x : TimeEntry} {l : List TimeEntry}
    (h : l.any (fun e => e.id == x.id) = true) :
    save x l = List.insertionSort entryLE (l.map (fun e => if e.id = x.id then x else e)) := by
  simp only [save, h, if_true]

theorem active_count_insertionSort (l : List TimeEntry) :
    active_count (List.insertionSort entryLE l) = active_count l :=
  (List.perm_insertionSort entryLE l).countP_eq _

theorem mem_save {x e : TimeEntry} {l : List TimeEntry} (h : e ∈ save x l) :
    e = x ∨ e ∈ l := by
  unfold save at h
  rw [List.mem_insertionSort] at h
  split at h
  · rcases List.mem_map.mp h with ⟨a, ha, hfa⟩
    by_cases hid : a.id = x.id
    · left; rw [if_pos hid] at hfa; exact hfa.symm
    · right; rw [if_neg hid] at hfa; exact hfa ▸ ha
  · rcases List.mem_append.mp h with h' | h'
    · rcases List.mem_map.mp h' with ⟨a, ha, hfa⟩
      by_cases hid : a.id = x.id
      · left; rw [if_pos hid] at hfa; exact hfa.symm
      · right; rw [if_neg hid] at hfa; exact hfa ▸ ha
    · left; exact (List.mem_singleton.mp h')

/-! ### C1: the single-active-entry invariant -/

/-- The inductive invariant for the service: every stored id was
generated from an earlier counter value, and at most one entry is
active. -/
def svc_inv (s : ServiceState) : Prop :=
  (∀ e ∈ s.entries, ∃ k, k < s.nextId ∧ e.id = genId k) ∧ active_count s.entries ≤ 1

theorem svc_inv_step {s : ServiceState} (op : SvcOp) (hs : svc_inv s) :
    svc_inv (svc_step s op) := by
  obtain ⟨hids, hcnt⟩ := hs
  cases op with
  | startOp project comment tags t =>
    cases hact : get_active_entry s.entries with
    | some a =>
      have hstep : svc_step s (SvcOp.startOp project comment tags t) = s := by
        simp [svc_step, start_tracking, hact]
      rw [hstep]; exact ⟨hids, hcnt⟩
    | none =>
      have hzero : active_count s.entries = 0 := by
        unfold active_count
        rw [List.countP_eq_zero]
        exact List.find?_eq_none.mp hact
      set x : TimeEntry :=
        { id := genId s.nextId, project := project, comment := comment,
          tags := tags, start_time := t, end_time := none } with hx
      have hstep : svc_step s (SvcOp.startOp project comment tags t) =
          { entries := save x s.entries, nextId := s.nextId + 1 } := by
        simp [svc_step, start_tracking, hact, hx]
      have hfresh : s.entries.any (fun e => e.id == x.id) = false := by
        rw [List.any_eq_false]
        intro e he
        simp only [beq_iff_eq]
        intro hid
        obtain ⟨k, hk, hek⟩ := hids e he
        have : k = s.nextId := genId_inj (hek.symm.trans hid)
        omega
      rw [hstep]
      constructor
      · intro e he
        simp only at he
        rw [save_of_not_found hfresh, List.mem_insertionSort, List.mem_append] at he
        rcases he with he | he
        · obtain ⟨k, hk, hek⟩ := hids e he
          exact ⟨k, show k < s.nextId + 1 by omega, hek⟩
        · exact ⟨s.nextId, show s.nextId < s.nextId + 1 by omega,
            by rw [List.mem_singleton.mp he]⟩
      · simp only
        rw [save_of_not_found hfresh, active_count_insertionSort]
        unfold active_count
        rw [List.countP_append, ← active_count, hzero]
        simp [x]
  | stopOp t =>
    cases hact : get_active_entry s.entries with
    | none =>
      have hstep : svc_step s (SvcOp.stopOp t) = s := by
        simp [svc_step, stop_tracking, hact]
      rw [hstep]; exact ⟨hids, hcnt⟩
    | some a =>
      by_cases hrange : dtLE a.start_time t
      · have ha_mem : a ∈ s.entries := List.mem_of_find?_eq_some hact
        set x : TimeEntry := { a with end_time := some t } with hxdef
        have hstep : svc_step s (SvcOp.stopOp t) =
            { entries := save x s.entries, nextId := s.nextId } := by
          simp [svc_step, stop_tracking, hact, hrange, hxdef]
        have hmatch : s.entries.any (fun e => e.id == x.id) = true := by
          rw [List.any_eq_true]
          exact ⟨a, ha_mem, by simp [x]⟩
        rw [hstep]
        constructor
        · intro e he
          simp only at he
          rw [save_of_found hmatch, List.mem_insertionSort] at he
          rcases List.mem_map.mp he with ⟨b, hb, hfb⟩
          by_cases hid : b.id = x.id
          · rw [if_pos hid] at hfb
            obtain ⟨k, hk, hek⟩ := hids a ha_mem
            exact ⟨k, hk, by rw [← hfb]; simpa [x] using hek⟩
          · rw [if_neg hid] at hfb
            exact hids e (hfb ▸ hb)
        · simp only
          rw [save_of_found hmatch, active_count_insertionSort]
          unfold active_count
          rw [List.countP_map]
          calc s.entries.countP ((fun e => e.end_time.isNone) ∘
                  fun e => if e.id = x.id then x else e)
              ≤ s.entries.countP (fun e => e.end_time.isNone) := by
                apply List.countP_mono_left
                intro b _ hpb
                simp only [Function.comp] at hpb
                split at hpb
                · simp [x] at hpb
                · exact hpb
            _ ≤ 1 := hcnt
      · have hstep : svc_step s (SvcOp.stopOp t) = s := by
          simp [svc_step, stop_tracking, hact, hrange]
        rw [hstep]; exact ⟨hids, hcnt⟩

theorem svc_inv_apply (ops : List SvcOp) {s : ServiceState} (hs : svc_inv s) :
    svc_inv (apply_svc ops s) := by
  induction ops generalizing s with
  | nil => exact hs
  | cons op ops ih => exact ih (svc_inv_step op hs)

/-- C1: for every sequence of `startTracking`/`stopTracking` calls
applied to the initially empty store, at most one persisted entry has
an absent `end_time` at any point (every point is the end of such a
sequence). -/
theorem startStop_at_most_one_active (ops : List SvcOp) :
    active_count (apply_svc ops svc_init).entries ≤ 1 :=
  (svc_inv_apply ops
    ⟨fun e he => absurd he (List.not_mem_nil e), by simp [active_count, svc_init]⟩).2

/-! ### C2: `get_active_entry` with a corrupted store -/

/-- A sample active entry (no `end_time`). -/
def sampleActA : TimeEntry :=
  { id := "a1", project := "p", comment := "", tags := [],
    start_time := ⟨1, 0⟩, end_time := none }

/-- A second sample active entry. -/
def sampleActB : TimeEntry :=
  { id := "b2", project := "q", comment := "", tags := [],
    start_time := ⟨1, 5⟩, end_time := none }

/-- A sample finished entry. -/
def sampleDone : TimeEntry :=
  { id := "a1", project := "p", comment := "", tags := [],
    start_time := ⟨1, 0⟩, end_time := some ⟨1, 2⟩ }

/-- C2 counterexample: with two active entries in storage (a violated
invariant), `get_active_entry` silently returns the first one instead
of failing with `CorruptStateError` — the code has no defensive check. -/
theorem getActive_no_corrupt_check :
    active_count [sampleActA, sampleActB] = 2 ∧
    get_active_entry [sampleActA, sampleActB] = some sampleActA :=
  ⟨rfl, rfl⟩

/-- C2 amended: `get_active_entry` returns `none` exactly when no
stored entry is active, and otherwise returns the first active entry
in storage order, with no corrupt-state check for further active
entries. -/
theorem getActive_returns_first_active (l : List TimeEntry) :
    (get_active_entry l = none ↔ active_count l = 0) ∧
    (∀ e, get_active_entry l = some e → e.end_time = none ∧
      ∃ l₁ l₂, l = l₁ ++ e :: l₂ ∧ ∀ x ∈ l₁, x.end_time ≠ none) := by
  constructor
  · unfold get_active_entry active_count
    rw [List.find?_eq_none, List.countP_eq_zero]
  · induction l with
    | nil => intro e he; simp [get_active_entry] at he
    | cons x l ih =>
      intro e he
      unfold get_active_entry at he
      rw [List.find?_cons] at he
      by_cases hx : x.end_time.isNone
      · rw [hx] at he
        simp only [Option.some.injEq] at he
        subst he
        exact ⟨Option.isNone_iff_eq_none.mp hx, [], l, rfl, by intro y hy; simp at hy⟩
      · rw [Bool.not_eq_true] at hx
        rw [hx] at he
        obtain ⟨hend, l₁, l₂, hdecomp, hpre⟩ := ih e he
        refine ⟨hend, x :: l₁, l₂, by rw [hdecomp, List.cons_append], ?_⟩
        intro y hy
        rcases List.mem_cons.mp hy with hy | hy
        · subst hy
          intro hcon
          rw [hcon] at hx
          simp at hx
        · exact hpre y hy

/-- Witness for the amended C2 theorem at a concrete store: an
inactive entry followed by an active one. -/
theorem getActive_returns_first_active_witness :
    get_active_entry [sampleDone, sampleActB] = some sampleActB ∧
    sampleActB.end_time = none ∧
    ∃ l₁ l₂, [sampleDone, sampleActB] = l₁ ++ sampleActB :: l₂ ∧
      ∀ x ∈ l₁, x.end_time ≠ none :=
  ⟨rfl, (getActive_returns_first_active [sampleDone, sampleActB]).2 sampleActB rfl⟩

/-! ### C3: ordering maintained on write -/

/-- Insert before a list whose head is already `≥`: the entry lands at
the front. -/
theorem orderedInsert_eq_cons {x : TimeEntry} {l : List TimeEntry}
    (h : ∀ b, l.head? = some b → entryLE x b) :
    List.orderedInsert entryLE x l = x :: l := by
  cases l with
  | nil => rfl
  | cons z l' =>
    unfold List.orderedInsert
    rw [if_pos (h z rfl)]

/-- Insert below every element: the entry lands at the front. -/
theorem orderedInsert_of_forall {x : TimeEntry} {l : List TimeEntry}
    (h : ∀ b ∈ l, entryLE x b) : List.orderedInsert entryLE x l = x :: l := by
  cases l with
  | nil => rfl
  | cons z l' =>
    unfold List.orderedInsert
    rw [if_pos (h z (List.mem_cons_self z l'))]

/-- Stability of the sort performed by `save`: appending a fresh entry
to an already-sorted list and re-sorting places it directly after the
existing entries with an equal-or-smaller sort key, leaving their
relative order intact. -/
theorem insertionSort_append_singleton (e : TimeEntry) :
    ∀ {l : List TimeEntry}, List.Sorted entryLE l →
      List.insertionSort entryLE (l ++ [e]) =
        (l.takeWhile fun x => decide (entryLE x e)) ++
          e :: (l.dropWhile fun x => decide (entryLE x e))
  | [], _ => rfl
  | x :: l, h => by
    have hl : List.Sorted entryLE l := h.of_cons
    have hx : ∀ b ∈ l, entryLE x b := List.rel_of_sorted_cons h
    have ih := insertionSort_append_singleton e hl
    by_cases hxe : entryLE x e
    · rw [List.cons_append, List.takeWhile_cons_of_pos (by simpa using hxe),
        List.dropWhile_cons_of_pos (by simpa using hxe)]
      show List.orderedInsert entryLE x (List.insertionSort entryLE (l ++ [e])) = _
      rw [ih]
      have hhead : ∀ b,
          ((l.takeWhile fun x => decide (entryLE x e)) ++
            e :: (l.dropWhile fun x => decide (entryLE x e))).head? = some b →
          entryLE x b := by
        intro b hb
        cases htw : l.takeWhile (fun x => decide (entryLE x e)) with
        | nil =>
          rw [htw] at hb
          simp only [List.nil_append, List.head?_cons, Option.some.injEq] at hb
          rw [← hb]; exact hxe
        | cons y tw' =>
          rw [htw] at hb
          simp only [List.cons_append, List.head?_cons, Option.some.injEq] at hb
          rw [← hb]
          exact hx y (List.takeWhile_subset _ (htw ▸ List.mem_cons_self y tw'))
      rw [orderedInsert_eq_cons hhead, List.cons_append]
    · have hble : ∀ b ∈ l, ¬ entryLE b e := fun b hb hbe => hxe (entryLE_trans (hx b hb) hbe)
      rw [List.cons_append, List.takeWhile_cons_of_neg (by simpa using hxe),
        List.dropWhile_cons_of_neg (by simpa using hxe)]
      show List.orderedInsert entryLE x (List.insertionSort entryLE (l ++ [e])) = _
      rw [ih]
      have htw : l.takeWhile (fun x => decide (entryLE x e)) = [] := by
        cases l with
        | nil => rfl
        | cons z l' =>
          exact List.takeWhile_cons_of_neg (by simpa using hble z (List.mem_cons_self z l'))
      have hdw : l.dropWhile (fun x => decide (entryLE x e)) = l := by
        cases l with
        | nil => rfl
        | cons z l' =>
          exact List.dropWhile_cons_of_neg (by simpa using hble z (List.mem_cons_self z l'))
      rw [htw, hdw]
      simp only [List.nil_append]
      unfold List.orderedInsert
      rw [if_neg hxe, orderedInsert_of_forall hx]

/-- Writes through `save` always persist a list sorted by `start_time`. -/
theorem save_sorted (x : TimeEntry) (l : List TimeEntry) :
    List.Sorted entryLE (save x l) := by
  unfold save
  exact List.sorted_insertionSort entryLE _

/-- Deletion preserves sortedness of the persisted list. -/
theorem delete_sorted {i : String} {l : List TimeEntry}
    (h : List.Sorted entryLE l) : List.Sorted entryLE (delete_entry i l).2 := by
  unfold delete_entry
  cases hm : (l.filter (fun e => e.id == i)).getLast? with
  | none => simpa using h
  | some f => simpa using h.filter _

/-- Every write (and read) keeps the persisted list sorted. -/
theorem plain_step_sorted {l : List TimeEntry} (op : RepoOp)
    (h : List.Sorted entryLE l) : List.Sorted entryLE (plain_step l op) := by
  cases op with
  | saveOp e => exact save_sorted e l
  | deleteOp i => exact delete_sorted h
  | readOp => exact h

theorem apply_plain_sorted_of (ops : List RepoOp) :
    ∀ {l : List TimeEntry}, List.Sorted entryLE l →
      List.Sorted entryLE (apply_plain ops l) := by
  induction ops with
  | nil => intro l h; exact h
  | cons op ops ih => intro l h; exact ih (plain_step_sorted op h)

/-- Scenario entry A: starts at 08:00. -/
def entryA : TimeEntry :=
  { id := "A", project := "p", comment := "", tags := [],
    start_time := ⟨10, 480⟩, end_time := some ⟨10, 505⟩ }

/-- Scenario entry B: starts at 09:00. -/
def entryB : TimeEntry :=
  { id := "B", project := "p", comment := "", tags := [],
    start_time := ⟨10, 540⟩, end_time := some ⟨10, 565⟩ }

/-- Scenario entry C: starts at 10:00. -/
def entryC : TimeEntry :=
  { id := "C", project := "p", comment := "", tags := [],
    start_time := ⟨10, 600⟩, end_time := some ⟨10, 625⟩ }

/-- C3: after every sequence of writes starting from the empty store
the persisted list itself is sorted by ascending `start_time`;
`get_all` returns that persisted list unchanged (no sorting at read
time); a fresh entry is placed after all stored entries with an
equal-or-smaller key, preserving insertion order among equal
`start_time`s; and the concrete scenario: saving C (10:00), A (08:00),
B (09:00) makes `get_all` return A, B, C. -/
theorem getAll_ordering_invariant :
    (∀ ops : List RepoOp, List.Sorted entryLE (apply_plain ops [])) ∧
    (∀ l : List TimeEntry, get_all l = l) ∧
    (∀ (e : TimeEntry) (l : List TimeEntry), List.Sorted entryLE l →
      l.any (fun x => x.id == e.id) = false →
      save e l = (l.takeWhile fun x => decide (entryLE x e)) ++
        e :: (l.dropWhile fun x => decide (entryLE x e))) ∧
    get_all (apply_plain
      [RepoOp.saveOp entryC, RepoOp.saveOp entryA, RepoOp.saveOp entryB] []) =
      [entryA, entryB, entryC] := by
  refine ⟨?_, fun l => rfl, ?_, by decide⟩
  · intro ops
    exact apply_plain_sorted_of ops List.sorted_nil
  · intro e l hsort hfresh
    rw [save_of_not_found hfresh]
    exact insertionSort_append_singleton e hsort

/-- Witness for C3's sorted-insert conjunct at a concrete store:
inserting a fresh 09:00 entry into a store holding the 08:00 and 10:00
entries places it in the middle. -/
theorem getAll_ordering_invariant_witness :
    List.Sorted entryLE [entryA, entryC] ∧
    ([entryA, entryC].any (fun x => x.id == entryB.id) = false) ∧
    save entryB [entryA, entryC] =
      ([entryA, entryC].takeWhile fun x => decide (entryLE x entryB)) ++
        entryB :: ([entryA, entryC].dropWhile fun x => decide (entryLE x entryB)) :=
  ⟨by decide, by decide,
    getAll_ordering_invariant.2.2.1 entryB [entryA, entryC] (by decide) (by decide)⟩

/-! ### C4: `save` is an upsert by id -/

/-- The entries whose id differs from the saved id are kept unchanged
by the in-place replacement pass. -/
theorem filter_ne_map_replace (e : TimeEntry) (l : List TimeEntry) :
    ((l.map fun x => if x.id = e.id then e else x).filter
      (fun x => !(x.id == e.id))) = l.filter (fun x => !(x.id == e.id)) := by
  induction l with
  | nil => rfl
  | cons x l ih =>
    by_cases hid : x.id = e.id
    · rw [List.map_cons, if_pos hid, List.filter_cons_of_neg (by simp),
        List.filter_cons_of_neg (by simp [hid]), ih]
    · rw [List.map_cons, if_neg hid, List.filter_cons_of_pos (by simp [hid]),
        List.filter_cons_of_pos (by simp [hid]), ih]

/-- C4: `save e` is an upsert by id.  Over a store whose ids are
unique (the data model's id-uniqueness), the saved collection holds
exactly one entry with `e.id`, that entry is `e` itself (replacing a
matching entry when one existed, appended otherwise), and the entries
with any other id are exactly those of the original store. -/
theorem save_upsert (e : TimeEntry) (l : List TimeEntry)
    (h : l.countP (fun x => x.id == e.id) ≤ 1) :
    (save e l).countP (fun x => x.id == e.id) = 1 ∧
    (∀ x ∈ save e l, x.id = e.id → x = e) ∧
    ((save e l).filter (fun x => !(x.id == e.id))).Perm
      (l.filter (fun x => !(x.id == e.id))) := by
  by_cases hfound : l.any (fun x => x.id == e.id) = true
  · rw [save_of_found hfound]
    have hperm := List.perm_insertionSort entryLE
      (l.map fun x => if x.id = e.id then e else x)
    refine ⟨?_, ?_, ?_⟩
    · rw [hperm.countP_eq, List.countP_map]
      have hcong : l.countP ((fun x => x.id == e.id) ∘
          fun x => if x.id = e.id then e else x) = l.countP (fun x => x.id == e.id) := by
        apply List.countP_congr
        intro x _
        by_cases hid : x.id = e.id
        · simp [Function.comp, hid]
        · simp [Function.comp, hid]
      rw [hcong]
      have hpos : 0 < l.countP (fun x => x.id == e.id) := by
        rw [List.countP_pos_iff]
        obtain ⟨x, hx, hpx⟩ := List.any_eq_true.mp hfound
        exact ⟨x, hx, hpx⟩
      omega
    · intro x hx hxid
      rw [List.mem_insertionSort] at hx
      rcases List.mem_map.mp hx with ⟨b, _, hfb⟩
      by_cases hbid : b.id = e.id
      · rw [if_pos hbid] at hfb; exact hfb.symm
      · rw [if_neg hbid] at hfb; rw [← hfb] at hxid; exact absurd hxid hbid
    · exact (hperm.filter _).trans (by rw [filter_ne_map_replace])
  · rw [Bool.not_eq_true] at hfound
    rw [save_of_not_found hfound]
    have hnone : ∀ x ∈ l, ¬(x.id == e.id) = true := List.any_eq_false.mp hfound
    have hperm := List.perm_insertionSort entryLE (l ++ [e])
    refine ⟨?_, ?_, ?_⟩
    · rw [hperm.countP_eq, List.countP_append]
      have hzero : l.countP (fun x => x.id == e.id) = 0 :=
        List.countP_eq_zero.mpr hnone
      rw [hzero]
      simp
    · intro x hx hxid
      rw [List.mem_insertionSort, List.mem_append] at hx
      rcases hx with hx | hx
      · exact absurd (by simpa using hxid) (hnone x hx)
      · exact List.mem_singleton.mp hx
    · refine (hperm.filter _).trans ?_
      rw [List.filter_append, List.filter_cons_of_neg (by simp), List.filter_nil,
        List.append_nil]

/-- Witness for C4 at a concrete store: saving a changed B (same id,
new comment) into a store already holding A and B replaces B. -/
theorem save_upsert_witness :
    ([entryA, entryB].countP
      (fun x => x.id == ({ entryB with comment := "edited" } : TimeEntry).id) ≤ 1) ∧
    ((save { entryB with comment := "edited" } [entryA, entryB]).countP
      (fun x => x.id == ({ entryB with comment := "edited" } : TimeEntry).id) = 1 ∧
    (∀ x ∈ save { entryB with comment := "edited" } [entryA, entryB],
      x.id = ({ entryB with comment := "edited" } : TimeEntry).id →
      x = { entryB with comment := "edited" }) ∧
    ((save { entryB with comment := "edited" } [entryA, entryB]).filter
      (fun x => !(x.id == ({ entryB with comment := "edited" } : TimeEntry).id))).Perm
      ([entryA, entryB].filter
        (fun x => !(x.id == ({ entryB with comment := "edited" } : TimeEntry).id)))) :=
  ⟨by decide, save_upsert { entryB with comment := "edited" } [entryA, entryB] (by decide)⟩

/-! ### C5: project pattern matching -/

/-- A list with its last element removed is a leading piece of the
original list. -/
theorem dropLast_isPre (l : List Char) : l.dropLast.isPrefixOf l = true := by
  induction l with
  | nil => rfl
  | cons c l ih =>
    cases l with
    | nil => rfl
    | cons d m =>
      show (c :: (d :: m).dropLast).isPrefixOf (c :: d :: m) = true
      simp only [List.isPrefixOf]
      simp [ih]

/-- The loop-body test is equivalent to the spec's matching rule: a
trailing-wildcard pattern tests the project's start against the
pattern minus its last character (exact equality is subsumed), any
other pattern tests exact equality. -/
theorem pat_hit_iff (p proj : String) :
    pat_hit p proj = true ↔
      (if isWild p = true then strStarts proj (dropLastStr p) = true else p = proj) := by
  unfold pat_hit
  cases hw : isWild p with
  | false => simp [hw]
  | true =>
    simp only [hw, Bool.true_and, Bool.or_eq_true, beq_iff_eq, if_pos]
    constructor
    · rintro (hs | hs)
      · exact hs
      · subst hs
        unfold strStarts dropLastStr
        exact dropLast_isPre p.data
    · exact Or.inl

/-- With only non-empty patterns, `_project_matching` never raises and
computes the disjunction of the per-pattern tests. -/
theorem project_matching_eq_any {ps : List String} (proj : String)
    (h : ∀ p ∈ ps, p ≠ "") :
    project_matching ps proj = some (ps.any (fun p => pat_hit p proj)) := by
  induction ps with
  | nil => rfl
  | cons p ps ih =>
    unfold project_matching
    rw [if_neg (h p (List.mem_cons_self p ps))]
    by_cases hhit : pat_hit p proj = true
    · simp [hhit]
    · rw [Bool.not_eq_true] at hhit
      simp [hhit, ih (fun q hq => h q (List.mem_cons_of_mem p hq))]

/-- C5 counterexample: the pattern `"work."` ends in `.`, so the code
matches any project starting with `"work"` — including `"workshop"`,
which the claim's example says must not match. -/
theorem projectMatching_workshop_counterexample :
    isWild "work." = true ∧ project_matching ["work."] "workshop" = some true := by
  constructor
  · decide
  · decide

/-- C5 amended: over non-empty patterns, an entry satisfies the
project constraint iff some pattern matches it, where a pattern ending
in `*`, `+` or `.` matches exactly the projects starting with the
pattern minus that character and any other pattern matches exactly the
equal project; an empty pattern set constrains nothing.  The claim's
examples hold except that `"work."` also matches `"workshop"` (whose
start is `"work"`). -/
theorem project_constraint_spec (ps : List String) (proj : String)
    (h : ∀ p ∈ ps, p ≠ "") :
    (project_matching ps proj = some true ↔
      ∃ p ∈ ps, if isWild p = true then strStarts proj (dropLastStr p) = true
                else p = proj) ∧
    project_matching ps proj ≠ none ∧
    proj_cond [] proj = some true ∧
    project_matching ["work."] "work.client-a" = some true ∧
    project_matching ["work."] "work.client-b" = some true ∧
    project_matching ["work."] "workshop" = some true ∧
    project_matching ["work"] "work" = some true ∧
    project_matching ["work"] "working" = some false := by
  refine ⟨?_, ?_, by simp [proj_cond], by decide, by decide, by decide, by decide, by decide⟩
  · rw [project_matching_eq_any proj h]
    simp only [Option.some.injEq, List.any_eq_true]
    exact ⟨fun ⟨p, hp, hhit⟩ => ⟨p, hp, (pat_hit_iff p proj).mp hhit⟩,
      fun ⟨p, hp, hc⟩ => ⟨p, hp, (pat_hit_iff p proj).mpr hc⟩⟩
  · rw [project_matching_eq_any proj h]
    simp

/-- Witness for the amended C5 theorem at a concrete pattern set. -/
theorem project_constraint_spec_witness :
    (∀ p ∈ ["work."], p ≠ "") ∧
    project_matching ["work."] "work.client-a" ≠ none :=
  ⟨by decide, (project_constraint_spec ["work."] "work.client-a" (by decide)).2.1⟩

/-! ### C6: date bounds in the filter -/

/-- C6: a passing entry respects a present `start_date` lower bound on
`start_time.date()`; a passing entry under a present `end_date` has an
`end_time` whose date respects the upper bound; hence an active entry
(no `end_time`) never passes a filter carrying an `end_date`. -/
theorem check_date_bounds (f : EntryListFilter) (e : TimeEntry) :
    (∀ d, f.start_date = some d → check_against_filter f e = some true →
      d ≤ e.start_time.day) ∧
    (∀ d, f.end_date = some d → check_against_filter f e = some true →
      ∃ et, e.end_time = some et ∧ et.day ≤ d) ∧
    (f.end_date ≠ none → e.end_time = none → check_against_filter f e ≠ some true) := by
  cases hp : proj_cond f.projects e.project with
  | none =>
    refine ⟨?_, ?_, ?_⟩ <;> intro a b c <;> simp [check_against_filter, hp] at c
  | some pc =>
    refine ⟨?_, ?_, ?_⟩
    · intro d hd hchk
      simp only [check_against_filter, hp, hd, Option.some.injEq, Bool.and_eq_true,
        decide_eq_true_eq, ge_iff_le] at hchk
      exact hchk.1.1.2
    · intro d hd hchk
      cases he : e.end_time with
      | none => simp [check_against_filter, hp, hd, he] at hchk
      | some et =>
        simp only [check_against_filter, hp, hd, he, Option.some.injEq,
          Bool.and_eq_true, decide_eq_true_eq] at hchk
        exact ⟨et, rfl, hchk.1.2⟩
    · intro hd he hchk
      cases hed : f.end_date with
      | none => exact hd hed
      | some d => simp [check_against_filter, hp, hed, he] at hchk

/-- Witness for C6 at a concrete filter and entry: an active entry is
excluded by a filter with an `end_date`. -/
theorem check_date_bounds_witness :
    ({ id := none, projects := [], start_date := none, end_date := some 5,
       tags := [] } : EntryListFilter).end_date ≠ none ∧
    sampleActA.end_time = none ∧
    check_against_filter
      { id := none, projects := [], start_date := none, end_date := some 5,
        tags := [] } sampleActA ≠ some true :=
  ⟨by decide, rfl,
    (check_date_bounds
      { id := none, projects := [], start_date := none, end_date := some 5,
        tags := [] } sampleActA).2.2 (by decide) rfl⟩

/-! ### C7: resolution of id fragments -/

/-- Scenario entry with id `abc123`. -/
def entryAbc1 : TimeEntry :=
  { id := "abc123", project := "p", comment := "", tags := [],
    start_time := ⟨2, 0⟩, end_time := some ⟨2, 1⟩ }

/-- Scenario entry with id `abc999`. -/
def entryAbc2 : TimeEntry :=
  { id := "abc999", project := "p", comment := "", tags := [],
    start_time := ⟨2, 2⟩, end_time := some ⟨2, 3⟩ }

/-- Scenario entry with id `xyz001`. -/
def entryXyz : TimeEntry :=
  { id := "xyz001", project := "p", comment := "", tags := [],
    start_time := ⟨2, 4⟩, end_time := some ⟨2, 5⟩ }

/-- C7: resolving an id fragment scans all entries case-sensitively:
no match is `NotFoundError`, several matches is `AmbiguousIdError`
carrying the match count, a unique match is returned; with ids
`abc123`, `abc999`, `xyz001`: `abc` is ambiguous (2), `xyz` resolves,
`qqq` is not found, and `ABC` is not found (case-sensitive). -/
theorem pid_resolution (pfx : String) (l : List TimeEntry) :
    ((get_all l).filter (fun e => strStarts e.id pfx) = [] →
      get_entry_by_pid pfx l = Except.error RepoErr.notFoundError) ∧
    (∀ e, (get_all l).filter (fun e => strStarts e.id pfx) = [e] →
      get_entry_by_pid pfx l = Except.ok e) ∧
    (∀ a b rest, (get_all l).filter (fun e => strStarts e.id pfx) = a :: b :: rest →
      get_entry_by_pid pfx l =
        Except.error (RepoErr.ambiguousIdError (a :: b :: rest).length)) ∧
    get_entry_by_pid "abc" [entryAbc1, entryAbc2, entryXyz] =
      Except.error (RepoErr.ambiguousIdError 2) ∧
    get_entry_by_pid "xyz" [entryAbc1, entryAbc2, entryXyz] = Except.ok entryXyz ∧
    get_entry_by_pid "qqq" [entryAbc1, entryAbc2, entryXyz] =
      Except.error RepoErr.notFoundError ∧
    get_entry_by_pid "ABC" [entryAbc1, entryAbc2, entryXyz] =
      Except.error RepoErr.notFoundError := by
  refine ⟨?_, ?_, ?_, rfl, rfl, rfl, rfl⟩
  · intro hm
    unfold get_entry_by_pid
    rw [hm]
  · intro e hm
    unfold get_entry_by_pid
    rw [hm]
  · intro a b rest hm
    unfold get_entry_by_pid
    rw [hm]

/-- Witness for C7's unique-match conjunct at the scenario store. -/
theorem pid_resolution_witness :
    (get_all [entryAbc1, entryAbc2, entryXyz]).filter
      (fun e => strStarts e.id "xyz") = [entryXyz] ∧
    get_entry_by_pid "xyz" [entryAbc1, entryAbc2, entryXyz] = Except.ok entryXyz :=
  ⟨by decide,
    (pid_resolution "xyz" [entryAbc1, entryAbc2, entryXyz]).2.1 entryXyz (by decide)⟩

/-! ### C8: `delete_entry` semantics -/

/-- C8: deleting an id present exactly once removes and returns that
entry leaving every other entry unchanged in order; deleting a missing
id fails with `NotFoundError` and leaves the persisted collection
untouched (the failure is raised before the write). -/
theorem delete_entry_spec (i : String) (l : List TimeEntry) :
    (∀ l₁ e l₂, l = l₁ ++ e :: l₂ → e.id = i →
      (∀ x ∈ l₁, x.id ≠ i) → (∀ x ∈ l₂, x.id ≠ i) →
      delete_entry i l = (Except.ok e, l₁ ++ l₂)) ∧
    ((∀ x ∈ l, x.id ≠ i) →
      delete_entry i l = (Except.error RepoErr.notFoundError, l)) := by
  constructor
  · intro l₁ e l₂ hdec hid h₁ h₂
    subst hdec
    have hmatch : (l₁ ++ e :: l₂).filter (fun x => x.id == i) = [e] := by
      rw [List.filter_append, List.filter_cons_of_pos (by simp [hid]),
        List.filter_eq_nil_iff.mpr (by intro a ha; simp [h₁ a ha]),
        List.filter_eq_nil_iff.mpr (by intro a ha; simp [h₂ a ha])]
      rfl
    have hkeep : (l₁ ++ e :: l₂).filter (fun x => !(x.id == i)) = l₁ ++ l₂ := by
      rw [List.filter_append, List.filter_cons_of_neg (by simp [hid]),
        List.filter_eq_self.mpr (by intro a ha; simp [h₁ a ha]),
        List.filter_eq_self.mpr (by intro a ha; simp [h₂ a ha])]
    simp only [delete_entry, hmatch, hkeep]
    rfl
  · intro hnone
    have hmatch : l.filter (fun x => x.id == i) = [] :=
      List.filter_eq_nil_iff.mpr (by intro a ha; simp [hnone a ha])
    simp only [delete_entry, hmatch]
    rfl

/-- Witness for C8 at a concrete store: deleting `"B"` from `[A, B]`
returns B and keeps A; deleting `"Z"` fails and leaves the store
unchanged. -/
theorem delete_entry_spec_witness :
    ([entryA, entryB] = [entryA] ++ entryB :: []) ∧ entryB.id = "B" ∧
    (∀ x ∈ [entryA], x.id ≠ "B") ∧ (∀ x ∈ ([] : List TimeEntry), x.id ≠ "B") ∧
    delete_entry "B" [entryA, entryB] = (Except.ok entryB, [entryA] ++ []) ∧
    delete_entry "Z" [entryA, entryB] =
      (Except.error RepoErr.notFoundError, [entryA, entryB]) :=
  ⟨rfl, rfl, by decide, by decide,
    (delete_entry_spec "B" [entryA, entryB]).1 [entryA] entryB [] rfl rfl
      (by decide) (by decide),
    (delete_entry_spec "Z" [entryA, entryB]).2 (by decide)⟩

/-! ### C9: the cache is never stale -/

/-- The cache, when filled, holds exactly the file's content. -/
def cache_ok (r : YamlRepo) : Prop :=
  ∀ c, r.cache = some c → c = r.file

theorem load_data_fst {r : YamlRepo} (h : cache_ok r) :
    (load_data r).1 = r.file := by
  unfold load_data
  cases hc : r.cache with
  | none => rfl
  | some d => simpa using h d hc

theorem load_data_snd_file (r : YamlRepo) : (load_data r).2.file = r.file := by
  unfold load_data
  cases hc : r.cache <;> rfl

theorem load_data_snd_ok {r : YamlRepo} (h : cache_ok r) :
    cache_ok (load_data r).2 := by
  unfold load_data
  cases hc : r.cache with
  | none =>
    intro c hcc
    simp only [Option.some.injEq] at hcc
    exact hcc.symm
  | some d => exact h

/-- Deletion either fails leaving the list, or succeeds
producing the filtered list. -/
theorem delete_entry_cases (i : String) (l : List TimeEntry) :
    delete_entry i l = (Except.error RepoErr.notFoundError, l) ∨
    ∃ e, delete_entry i l = (Except.ok e, l.filter (fun x => !(x.id == i))) := by
  unfold delete_entry
  cases hm : (l.filter (fun e => e.id == i)).getLast? with
  | none => left; rfl
  | some f => right; exact ⟨f, rfl⟩

theorem cached_step_ok {r : YamlRepo} (op : RepoOp) (h : cache_ok r) :
    cache_ok (cached_step r op) ∧ (cached_step r op).file = plain_step r.file op := by
  cases op with
  | saveOp e =>
    constructor
    · intro c hc
      simp only [cached_step, repo_save, save_data, Option.some.injEq] at hc ⊢
      exact hc.symm
    · simp only [cached_step, repo_save, save_data, plain_step]
      rw [load_data_fst h]
  | deleteOp i =>
    have hfst := load_data_fst h
    simp only [cached_step, repo_delete, plain_step, hfst]
    rcases delete_entry_cases i r.file with hca | ⟨e, hca⟩
    · rw [hca]
      refine ⟨load_data_snd_ok h, ?_⟩
      rw [load_data_snd_file]
    · rw [hca]
      refine ⟨?_, rfl⟩
      intro c hc
      simp only [save_data, Option.some.injEq] at hc
      exact hc.symm
  | readOp =>
    refine ⟨load_data_snd_ok h, ?_⟩
    simp only [cached_step, plain_step]
    exact load_data_snd_file r

theorem apply_cached_ok (ops : List RepoOp) :
    ∀ {r : YamlRepo}, cache_ok r →
      cache_ok (apply_cached ops r) ∧
      (apply_cached ops r).file = apply_plain ops r.file := by
  induction ops with
  | nil => intro r h; exact ⟨h, rfl⟩
  | cons op ops ih =>
    intro r h
    have hstep := cached_step_ok op h
    have hrest := ih hstep.1
    refine ⟨hrest.1, ?_⟩
    show (apply_cached ops (cached_step r op)).file =
      apply_plain ops (plain_step r.file op)
    rw [hrest.2, hstep.2]

/-- C9: the cached repository is observationally equivalent to a
cache-free store that reloads the file on every read.  After every
sequence of operations from a fresh repository over any initial file,
the backing file equals the cache-free store, the loaded snapshot
equals a fresh reload, and every read (`get_active_entry`, `get_all`,
`get_entry_by_id`, `filter`) returns exactly what the cache-free store
returns: the cache is never stale. -/
theorem cache_never_stale (f₀ : List TimeEntry) (ops : List RepoOp) :
    (apply_cached ops ⟨f₀, none⟩).file = apply_plain ops f₀ ∧
    (load_data (apply_cached ops ⟨f₀, none⟩)).1 = apply_plain ops f₀ ∧
    (repo_get_active (apply_cached ops ⟨f₀, none⟩)).1 =
      get_active_entry (apply_plain ops f₀) ∧
    (repo_get_all (apply_cached ops ⟨f₀, none⟩)).1 = get_all (apply_plain ops f₀) ∧
    (∀ i, (repo_get_by_id i (apply_cached ops ⟨f₀, none⟩)).1 =
      get_entry_by_id i (apply_plain ops f₀)) ∧
    (∀ f, (repo_filter_cached f (apply_cached ops ⟨f₀, none⟩)).1 =
      repo_filter f (apply_plain ops f₀)) := by
  have h₀ : cache_ok ⟨f₀, none⟩ := fun c hc => Option.noConfusion hc
  obtain ⟨hok, hfile⟩ := apply_cached_ok ops h₀
  have hload : (load_data (apply_cached ops ⟨f₀, none⟩)).1 = apply_plain ops f₀ := by
    rw [load_data_fst hok]; exact hfile
  refine ⟨hfile, hload, ?_, ?_, ?_, ?_⟩
  · simp only [repo_get_active]; rw [hload]
  · simp only [repo_get_all]; rw [hload]
  · intro i; simp only [repo_get_by_id]; rw [hload]
  · intro f; simp only [repo_filter_cached]; rw [hload]

/-! ### C10: the empty project pattern -/

/-- C10 counterexample: a projects set containing the empty string
does not always make the filter evaluation fail — when a matching
pattern is examined before the empty one, the loop returns `True`
without ever reaching it.  Here both the raw matcher and the whole
filter check succeed. -/
theorem empty_pattern_not_always_failing :
    "" ∈ ["work", ""] ∧
    project_matching ["work", ""] "work" = some true ∧
    check_against_filter
      { id := none, projects := ["work", ""], start_date := none, end_date := none,
        tags := [] }
      { id := "e1", project := "work", comment := "", tags := [],
        start_time := ⟨1, 0⟩, end_time := none } = some true := by
  refine ⟨by decide, by decide, by decide⟩

/-- C10 amended: examining the empty pattern fails (its last character
is inspected), so the filter evaluation fails exactly when the empty
string is reached before any matching pattern — in particular whenever
the patterns before it neither are empty nor match; the whole
`_check_against_filter` then yields no verdict. -/
theorem empty_pattern_failure (ps₁ ps₂ : List String) (proj : String)
    (h : ∀ p ∈ ps₁, p ≠ "" ∧ pat_hit p proj = false) :
    project_matching (ps₁ ++ "" :: ps₂) proj = none ∧
    (∀ (f : EntryListFilter) (e : TimeEntry), f.projects = ps₁ ++ "" :: ps₂ →
      e.project = proj → check_against_filter f e = none) := by
  have hmain : project_matching (ps₁ ++ "" :: ps₂) proj = none := by
    induction ps₁ with
    | nil => rfl
    | cons p ps₁ ih =>
      obtain ⟨hp, hhit⟩ := h p (List.mem_cons_self p ps₁)
      rw [List.cons_append]
      unfold project_matching
      rw [if_neg hp, hhit]
      exact ih (fun q hq => h q (List.mem_cons_of_mem p hq))
  refine ⟨hmain, ?_⟩
  intro f e hf he
  have hne : ps₁ ++ "" :: ps₂ ≠ ([] : List String) :=
    List.append_ne_nil_of_right_ne_nil _ (List.cons_ne_nil _ _)
  simp only [check_against_filter, proj_cond, hf, he, if_neg hne, hmain]

/-- Witness for the amended C10 theorem: with patterns
`["work", ""]` and a project matching neither prior pattern, the
evaluation fails. -/
theorem empty_pattern_failure_witness :
    (∀ p ∈ ["work"], p ≠ "" ∧ pat_hit p "other" = false) ∧
    project_matching (["work"] ++ "" :: []) "other" = none :=
  ⟨by decide, (empty_pattern_failure ["work"] [] "other" (by decide)).1⟩
